import Mathlib

/-
Verification of the mongoose-i18n-extra plugin (src/mongoose-i18n-extra.ts).

The plugin is shallowly embedded: a document instance is a record of its raw
storage (`_doc`): the base field slots, the stored `_i18n` overlay, the
transient `docLanguage` override, the `isNew` flag and a log of paths passed
to `markModified`.  JavaScript objects are embedded as association lists
(insertion-ordered key/value pairs), JavaScript values as `JsVal` (a string
or `null`), with an absent key / `undefined` appearing as `Option.none` at
lookup sites.  JavaScript truthiness for these values is the `truthy`
predicate (non-empty strings are truthy; `null`, `undefined` and `""` are
falsy).

Host-framework primitives used by the plugin are modelled with their
documented mongoose semantics:
  - `doc.getValue p` / `doc.$__getValue p` / `mpath.get(p, doc, "_doc")`
    read the raw `_doc` storage at path `p` without invoking getters;
    in particular `this.get("_i18n.L.f")` resolves no virtual (the schema
    declares only the exact virtual path `_i18n`) and therefore walks the
    raw `_doc._i18n` object, embedded here as `ovEntry`.
  - `doc.set(p, v)` on a nested `_i18n.<lang>.<field>` path stores `v` at
    that path of the raw document and records the path as modified.
  - a schema-type getter receives the stored base slot value; the value
    returned by a schema-type setter is what mongoose stores into the base
    slot.
  - `markModified p` appends `p` to the modification log.

Schema-level static state is embedded as a `Store` mapping an identifier of
each plugin closure's `options` object to its current `Options` record; a
`SchemaTree` records which options object each (sub-)schema's plugin
instance captured, so that the recursive walk of the statics can be stated
faithfully: the source's `updateLanguage` helpers close over the `options`
of the plugin instance whose static was invoked and mutate only that
object.
-/

namespace MongooseI18nExtra

/-- A JavaScript value stored in a translatable slot: `null` or a string.
An absent key (`undefined`) is represented by `Option.none` at lookup
sites. -/
inductive JsVal where
  | vnull : JsVal
  | vstr : String → JsVal
deriving DecidableEq, Repr

/-- JavaScript truthiness of a possibly-absent value: only a non-empty
string is truthy; `null`, `undefined` and `""` are falsy. -/
def truthy : Option JsVal → Bool
  | some (JsVal.vstr s) => s != ""
  | _ => false

/-- A JavaScript object whose values have type `α`, as an insertion-ordered
association list. -/
abbrev JsObj (α : Type) : Type := List (String × α)

/-- One language's sub-map of the overlay: field path to value. -/
abbrev LM : Type := JsObj JsVal

/-- The `_i18n` overlay object: language code to sub-map. -/
abbrev Ov : Type := JsObj LM

/-- Property lookup `o[k]` on a JavaScript object. -/
def aGet {α : Type} : JsObj α → String → Option α
  | [], _ => none
  | (k', v) :: rest, k => if k' = k then some v else aGet rest k

/-- Property assignment `o[k] = v` on a JavaScript object (overwrites in
place, otherwise appends in insertion order). -/
def aSet {α : Type} : JsObj α → String → α → JsObj α
  | [], k, v => [(k, v)]
  | (k', v') :: rest, k, v =>
      if k' = k then (k', v) :: rest else (k', v') :: aSet rest k v

/-- Property deletion `delete o[k]`. -/
def aRemove {α : Type} : JsObj α → String → JsObj α
  | [], _ => []
  | (k', v) :: rest, k =>
      if k' = k then aRemove rest k else (k', v) :: aRemove rest k

/-- Assignment of a possibly-absent value: assigning `undefined` makes the
key unobservable to `aGet`, which is how `undefined`-valued keys behave at
every lookup site of the plugin. -/
def aSetOpt {α : Type} (l : JsObj α) (k : String) (v : Option α) : JsObj α :=
  match v with
  | some x => aSet l k x
  | none => aRemove l k

/-- The `Options` record handed to the plugin (`defaultLanguage`,
`languages`, optional schema-wide `language`; an absent `language` is the
empty string, matching its only use under JavaScript truthiness). -/
structure Options where
  defaultLanguage : String
  languages : List String
  language : String
deriving DecidableEq, Repr

/-- A document instance: raw `_doc` base slots, the stored `_i18n` overlay
(`none` when `_doc` has no `_i18n` key), the transient `docLanguage`
override (empty string when unset, matching its use under truthiness),
mongoose's `isNew` flag, and the log of paths marked modified. -/
structure Doc where
  base : String → Option JsVal
  overlay : Option Ov
  docLanguage : String
  isNew : Bool
  modified : List String

/-- Raw stored-overlay lookup `_doc._i18n[lang][f]` inside an overlay
object. -/
def entryAt (o : Ov) (lang f : String) : Option JsVal :=
  match aGet o lang with
  | none => none
  | some m => aGet m f

/-- Raw stored-overlay lookup on a document, the meaning of
`this.get("_i18n." + lang + "." + f)` and of
`getPathValue(this, "_i18n." + lang + "." + f)`. -/
def ovEntry (doc : Doc) (lang f : String) : Option JsVal :=
  entryAt (doc.overlay.getD []) lang f

/-- `getLanguage` instance method (lines 132-134):
`this.docLanguage || options.language || options.defaultLanguage`. -/
def getLanguage (doc : Doc) (opts : Options) : String :=
  if doc.docLanguage ≠ "" then doc.docLanguage
  else if opts.language ≠ "" then opts.language
  else opts.defaultLanguage

/-- `setLanguage` instance method (lines 135-139): sets the instance
override only when the code is truthy and a member of the configured
languages. -/
def methodSetLanguage (doc : Doc) (opts : Options) (lang : String) : Doc :=
  if lang ≠ "" ∧ lang ∈ opts.languages then { doc with docLanguage := lang }
  else doc

/-- `schemaType.options.get` (lines 59-76).  `fallbackLang` is the marked
field's `fallbackLang` option, the empty string when unset (its only use is
under truthiness).  The getter receives the stored base slot `doc.base f`
as its `value` argument. -/
def fieldGet (doc : Doc) (opts : Options) (fallbackLang f : String) :
    Option JsVal :=
  if getLanguage doc opts = opts.defaultLanguage then doc.base f
  else if truthy (ovEntry doc (getLanguage doc opts) f) then
    ovEntry doc (getLanguage doc opts) f
  else if fallbackLang ≠ "" then
    (if truthy (ovEntry doc fallbackLang f) then ovEntry doc fallbackLang f
     else doc.base f)
  else ovEntry doc (getLanguage doc opts) f

/-- `schemaType.options.set` (lines 77-91) together with the surrounding
mongoose set pipeline: the setter's return value is stored into the base
slot.  In the non-default branch the setter updates the stored overlay at
`[currentLang][f]`, marks `_i18n` modified, and returns
`this.isNew && !defaultValue ? value : defaultValue` where `defaultValue`
is the raw base slot. -/
def fieldSet (doc : Doc) (opts : Options) (f : String) (v : JsVal) : Doc :=
  if getLanguage doc opts = opts.defaultLanguage then
    { doc with
        base := fun x => if x = f then some v else doc.base x,
        modified := f :: doc.modified }
  else
    let lang := getLanguage doc opts
    let o := doc.overlay.getD []
    let m := (aGet o lang).getD []
    let stored :=
      if doc.isNew ∧ truthy (doc.base f) = false then some v else doc.base f
    { doc with
        overlay := some (aSet o lang (aSet m f v)),
        modified := "_i18n" :: doc.modified,
        base := fun x => if x = f then stored else doc.base x }

/-- Getter of the per-language virtual `field_lang` (lines 44-48): a raw
`getPathValue` of either the base path or the `_i18n.lang.f` path. -/
def virtualGet (doc : Doc) (opts : Options) (f lang : String) : Option JsVal :=
  if lang = opts.defaultLanguage then doc.base f else ovEntry doc lang f

/-- Setter of the per-language virtual `field_lang` (lines 49-57): for the
default language, raw `setPathValue` into the base slot plus
`markModified(path)`; otherwise `this.set("_i18n." + lang + "." + path,
value)`, which stores at that raw path and records it as modified. -/
def virtualSet (doc : Doc) (opts : Options) (f lang : String) (v : JsVal) :
    Doc :=
  if lang = opts.defaultLanguage then
    { doc with
        base := fun x => if x = f then some v else doc.base x,
        modified := f :: doc.modified }
  else
    let o := doc.overlay.getD []
    let m := (aGet o lang).getD []
    { doc with
        overlay := some (aSet o lang (aSet m f v)),
        modified := ("_i18n." ++ lang ++ "." ++ f) :: doc.modified }

/-- Inner step of the `_i18n` virtual getter (lines 103-106):
`value[lang] = value[lang] || {}; value[lang][f] = value[lang][f] || null`. -/
def aggLangStep (f : String) (o : Ov) (lang : String) : Ov :=
  aSet o lang
    (if truthy (aGet ((aGet o lang).getD []) f) then (aGet o lang).getD []
     else aSet ((aGet o lang).getD []) f JsVal.vnull)

/-- Per-field step of the `_i18n` virtual getter (lines 102-111): run the
language loop, then `value[default][f] = getPathValue(self, f)`. -/
def aggFieldStep (dft : String) (base : String → Option JsVal)
    (langs : List String) (o : Ov) (f : String) : Ov :=
  aSet (langs.foldl (aggLangStep f) o) dft
    (aSetOpt ((aGet (langs.foldl (aggLangStep f) o) dft).getD []) f (base f))

/-- The object returned by the `_i18n` virtual getter (lines 98-112):
starting from the stored overlay (or a fresh empty object),
`value[default] = {}`, then the field/language fill loops. -/
def aggGetResult (doc : Doc) (opts : Options) (fields : List String) : Ov :=
  fields.foldl (aggFieldStep opts.defaultLanguage doc.base opts.languages)
    (aSet (doc.overlay.getD []) opts.defaultLanguage [])

/-- Document state after one read of the `_i18n` virtual: the getter
builds its result by mutating `getPathValue(this, "_i18n") || {}` in
place, so when a stored overlay object exists (it is truthy and aliased)
the stored overlay becomes the result object; when `_doc` has no `_i18n`
key the loops run on a fresh object and the document is unchanged. -/
def aggGetDoc (doc : Doc) (opts : Options) (fields : List String) : Doc :=
  match doc.overlay with
  | some _ => { doc with overlay := some (aggGetResult doc opts fields) }
  | none => doc

/-- The `_i18n` virtual setter (lines 114-126): when the payload has a
(necessarily truthy) default-language sub-object, write each of its keys
to the corresponding base slot via raw `setPathValue` and mark each key
modified, delete that sub-object, then store the remaining payload
wholesale as the overlay and mark `_i18n` modified. -/
def aggSetDoc (doc : Doc) (opts : Options) (payload : Ov) : Doc :=
  match aGet payload opts.defaultLanguage with
  | some dm =>
      { doc with
          base := dm.foldl
            (fun b p => fun x => if x = p.1 then some p.2 else b x) doc.base,
          overlay := some (aRemove payload opts.defaultLanguage),
          modified := "_i18n" :: dm.foldl (fun acc p => p.1 :: acc) doc.modified }
  | none =>
      { doc with
          overlay := some payload,
          modified := "_i18n" :: doc.modified }

/-- Decidable form of the spec invariant: the stored overlay has no entry
keyed by the default language. -/
def noDefB (doc : Doc) (dft : String) : Bool :=
  match doc.overlay with
  | none => true
  | some o => (aGet o dft).isNone

/-- A schema node, identified by the id of the `options` object its plugin
application captured, with its nested sub-schemas. -/
inductive SchemaTree where
  | node (optsRef : Nat) (children : List SchemaTree)

/-- Schema-level mutable state: each plugin closure's `options` object by
id. -/
abbrev Store : Type := Nat → Options

/-- Mutation of one `options` object in the store. -/
def storeSet (st : Store) (r : Nat) (o : Options) : Store :=
  fun x => if x = r then o else st x

mutual

/-- The inner `updateLanguage` helper of the statics (lines 153-164 and
172-184): it closes over the `options` object `r` of the plugin instance
whose static was invoked, mutates that object, and recurses into every
nested sub-schema — where it again mutates the same closed-over object. -/
def updateLanguageWalk (upd : Options → String → Options) (r : Nat)
    (lang : String) : SchemaTree → Store → Store
  | SchemaTree.node _ cs, st =>
      updateLanguageWalkList upd r lang cs (storeSet st r (upd (st r) lang))

/-- `eachPath` recursion of `updateLanguage` over the nested sub-schemas. -/
def updateLanguageWalkList (upd : Options → String → Options) (r : Nat)
    (lang : String) : List SchemaTree → Store → Store
  | [], st => st
  | c :: cs, st =>
      updateLanguageWalkList upd r lang cs (updateLanguageWalk upd r lang c st)

end

/-- Static `setLanguage` (lines 152-170): validate against the invoking
plugin instance's configured languages, then walk, setting
`options.language = lang.slice(0)`. -/
def staticSetLanguage (r : Nat) (t : SchemaTree) (st : Store) (lang : String) :
    Store :=
  if lang ≠ "" ∧ lang ∈ (st r).languages then
    updateLanguageWalk (fun o l => { o with language := l }) r lang t st
  else st

/-- Static `setDefaultLanguage` (lines 171-190): validate, then walk,
setting `options.defaultLanguage = lang.slice(0)`. -/
def staticSetDefaultLanguage (r : Nat) (t : SchemaTree) (st : Store)
    (lang : String) : Store :=
  if lang ≠ "" ∧ lang ∈ (st r).languages then
    updateLanguageWalk (fun o l => { o with defaultLanguage := l }) r lang t st
  else st

/-- The host object seen by the `getPathValue` / `setPathValue` helpers
(lines 11-28): each probed read primitive is optional; the two probed
write primitives are capability flags over a common value store, since a
missing `$__setValue` is not substituted but called — and calling an
absent member throws. -/
structure HostObj where
  getValueFn : Option (String → Option JsVal)
  dGetValueFn : Option (String → Option JsVal)
  props : String → Option JsVal
  mpathVals : String → Option JsVal
  hasSetValue : Bool
  hasDSetValue : Bool
  vals : String → Option JsVal

/-- `getPathValue` (lines 17-28): probe `getValue`, then `$__getValue`,
then a truthy own property, then fall back to
`mpath.get(path, obj, "_doc")`. -/
def getPathValue (h : HostObj) (path : String) : Option JsVal :=
  match h.getValueFn with
  | some g => g path
  | none =>
      match h.dGetValueFn with
      | some g => g path
      | none =>
          if truthy (h.props path) then h.props path else h.mpathVals path

/-- `setPathValue` (lines 11-15): `obj.setValue ? obj.setValue(path, value)
: obj.$__setValue(path, value)` — when neither member exists the call of
the absent `$__setValue` throws, modelled as `Except.error`. -/
def setPathValue (h : HostObj) (path : String) (v : JsVal) :
    Except Unit HostObj :=
  if h.hasSetValue then
    Except.ok { h with vals := fun x => if x = path then some v else h.vals x }
  else if h.hasDSetValue then
    Except.ok { h with vals := fun x => if x = path then some v else h.vals x }
  else Except.error ()

/-- The overlay-or-null fill applied to each `(lang, field)` slot by the
aggregate getter: a truthy stored value is kept, anything falsy becomes
`null`. -/
def jsOrNull (e : Option JsVal) : Option JsVal :=
  if truthy e then e else some JsVal.vnull

/-- Shared options for concrete instances: English default, French second
language, no schema-wide active language. -/
def optsEnFr : Options :=
  { defaultLanguage := "en", languages := ["en", "fr"], language := "" }

/-- A persisted document whose base `title` holds a default-language value,
with no stored overlay, read under active language `"fr"`. -/
def docC1 : Doc :=
  { base := fun x => if x = "title" then some (JsVal.vstr "Hello") else none,
    overlay := none, docLanguage := "fr", isNew := false, modified := [] }

/-- A brand-new document with empty base slots and no overlay, writing
under active language `"fr"`. -/
def docW2 : Doc :=
  { base := fun _ => none, overlay := none, docLanguage := "fr",
    isNew := true, modified := [] }

/-- A document with a stored Spanish overlay entry for `title`, read under
active language `"fr"` with `"es"` as the field's fallback language. -/
def docW3 : Doc :=
  { base := fun x => if x = "title" then some (JsVal.vstr "Hello") else none,
    overlay := some [("es", [("title", JsVal.vstr "Hola")])],
    docLanguage := "fr", isNew := false, modified := [] }

/-- A document with a stored French overlay entry (and so a truthy stored
`_i18n` object). -/
def docC4 : Doc :=
  { base := fun _ => none,
    overlay := some [("fr", [("title", JsVal.vstr "Bonjour")])],
    docLanguage := "", isNew := false, modified := [] }

/-- A document whose raw `_doc` has no `_i18n` key at all. -/
def docC9 : Doc :=
  { base := fun x => if x = "title" then some (JsVal.vstr "Hello") else none,
    overlay := none, docLanguage := "", isNew := true, modified := [] }

/-- A document with base and overlay content for exercising the
per-language virtuals. -/
def docW8 : Doc :=
  { base := fun x => if x = "title" then some (JsVal.vstr "Hello") else none,
    overlay := some [("fr", [("title", JsVal.vstr "Bonjour")])],
    docLanguage := "", isNew := false, modified := [] }

/-- A parent schema (options object 0) with one nested sub-schema whose own
plugin application captured options object 1; both configured with English
default and French as the second language. -/
def treeC6 : SchemaTree := SchemaTree.node 0 [SchemaTree.node 1 []]

/-- The store backing `treeC6`: every options object starts as
`optsEnFr`. -/
def storeC6 : Store := fun _ => optsEnFr

/-- A host object offering neither `getValue`/`$__getValue` nor
`setValue`/`$__setValue`, with one truthy value reachable only through the
generic `mpath` accessor. -/
def hostA : HostObj :=
  { getValueFn := none, dGetValueFn := none, props := fun _ => none,
    mpathVals := fun x => if x = "x" then some (JsVal.vstr "m") else none,
    hasSetValue := false, hasDSetValue := false, vals := fun _ => none }

/-- A host object in the shape of a mongoose 5.5.14+ document: no
`getValue`/`setValue`, but `$__getValue`/`$__setValue` present. -/
def hostB : HostObj :=
  { getValueFn := none,
    dGetValueFn := some (fun x => if x = "x" then some (JsVal.vstr "d") else none),
    props := fun _ => none, mpathVals := fun _ => none,
    hasSetValue := false, hasDSetValue := true, vals := fun _ => none }

theorem aGet_aSet_self {α : Type} (l : JsObj α) (k : String) (v : α) :
    aGet (aSet l k v) k = some v := by
  induction l with
  | nil => simp [aGet, aSet]
  | cons p rest ih =>
      obtain ⟨k0, v0⟩ := p
      by_cases h : k0 = k
      · simp [aGet, aSet, h]
      · simp [aGet, aSet, h, ih]

theorem aGet_aSet_ne {α : Type} (l : JsObj α) (k k' : String) (v : α)
    (h : k' ≠ k) : aGet (aSet l k v) k' = aGet l k' := by
  induction l with
  | nil => simp [aGet, aSet, Ne.symm h]
  | cons p rest ih =>
      obtain ⟨k0, v0⟩ := p
      by_cases hp : k0 = k
      · subst hp
        simp [aGet, aSet, Ne.symm h]
      · simp [aGet, aSet, hp, ih]

theorem aGet_aRemove_self {α : Type} (l : JsObj α) (k : String) :
    aGet (aRemove l k) k = none := by
  induction l with
  | nil => simp [aGet, aRemove]
  | cons p rest ih =>
      obtain ⟨k0, v0⟩ := p
      by_cases h : k0 = k
      · simp [aRemove, h, ih]
      · simp [aRemove, aGet, h, ih]

theorem aGet_aRemove_ne {α : Type} (l : JsObj α) (k k' : String)
    (h : k' ≠ k) : aGet (aRemove l k) k' = aGet l k' := by
  induction l with
  | nil => simp [aGet, aRemove]
  | cons p rest ih =>
      obtain ⟨k0, v0⟩ := p
      by_cases hp : k0 = k
      · subst hp
        simp [aRemove, aGet, Ne.symm h, ih]
      · simp [aRemove, aGet, hp, ih]

theorem aGet_aSetOpt_self {α : Type} (l : JsObj α) (k : String)
    (v : Option α) : aGet (aSetOpt l k v) k = v := by
  cases v with
  | some x => simp [aSetOpt, aGet_aSet_self]
  | none => simp [aSetOpt, aGet_aRemove_self]

theorem aGet_aSetOpt_ne {α : Type} (l : JsObj α) (k k' : String)
    (v : Option α) (h : k' ≠ k) : aGet (aSetOpt l k v) k' = aGet l k' := by
  cases v with
  | some x => simp [aSetOpt, aGet_aSet_ne l k k' x h]
  | none => simp [aSetOpt, aGet_aRemove_ne l k k' h]

theorem entryAt_aSet_self (o : Ov) (lang : String) (m : LM) (f : String) :
    entryAt (aSet o lang m) lang f = aGet m f := by
  simp [entryAt, aGet_aSet_self]

theorem entryAt_aSet_ne (o : Ov) (lang lang' : String) (m : LM) (f : String)
    (h : lang ≠ lang') :
    entryAt (aSet o lang' m) lang f = entryAt o lang f := by
  simp [entryAt, aGet_aSet_ne _ _ _ _ h]

theorem jsOrNull_isSome (e : Option JsVal) : (jsOrNull e).isSome = true := by
  cases e with
  | none => simp [jsOrNull, truthy]
  | some x =>
      cases x with
      | vnull => simp [jsOrNull, truthy]
      | vstr s =>
          by_cases h : s = ""
          · simp [jsOrNull, truthy, h]
          · simp [jsOrNull, truthy, h]

theorem jsOrNull_idem (e : Option JsVal) : jsOrNull (jsOrNull e) = jsOrNull e := by
  by_cases h : truthy e = true
  · simp [jsOrNull, h]
  · have hn : jsOrNull e = some JsVal.vnull := by simp [jsOrNull, h]
    rw [hn]
    simp [jsOrNull, truthy]

theorem aggLangStep_entry_self (f : String) (o : Ov) (lang : String) :
    entryAt (aggLangStep f o lang) lang f = jsOrNull (entryAt o lang f) := by
  cases ho : aGet o lang with
  | none =>
      simp [aggLangStep, entryAt, ho, aGet_aSet_self, jsOrNull, truthy, aGet]
  | some m =>
      by_cases ht : truthy (aGet m f) = true
      · simp [aggLangStep, entryAt, ho, ht, aGet_aSet_self, jsOrNull]
      · simp [aggLangStep, entryAt, ho, ht, aGet_aSet_self, jsOrNull]

theorem aggLangStep_entry_ne_lang (f f' : String) (o : Ov)
    (lang lang' : String) (h : lang ≠ lang') :
    entryAt (aggLangStep f' o lang') lang f = entryAt o lang f := by
  simp [aggLangStep, entryAt, aGet_aSet_ne _ _ _ _ h]

theorem aggLangStep_entry_ne_field (f f' : String) (o : Ov)
    (lang lang' : String) (h : f ≠ f') :
    entryAt (aggLangStep f' o lang') lang f = entryAt o lang f := by
  by_cases hl : lang = lang'
  · subst hl
    cases ho : aGet o lang with
    | none =>
        simp [aggLangStep, entryAt, ho, aGet_aSet_self,
          aGet_aSet_ne _ _ _ _ h, aGet, Ne.symm h]
    | some m =>
        by_cases ht : truthy (aGet m f') = true
        · simp [aggLangStep, entryAt, ho, ht, aGet_aSet_self]
        · simp [aggLangStep, entryAt, ho, ht, aGet_aSet_self,
            aGet_aSet_ne _ _ _ _ h]
  · exact aggLangStep_entry_ne_lang f f' o lang lang' hl

theorem aggLangStep_isSome_self (f : String) (o : Ov) (lang : String) :
    (aGet (aggLangStep f o lang) lang).isSome = true := by
  simp [aggLangStep, aGet_aSet_self]

theorem aggLangStep_isSome (f : String) (o : Ov) (lang lang' : String)
    (h : (aGet o lang).isSome = true) :
    (aGet (aggLangStep f o lang') lang).isSome = true := by
  by_cases hl : lang = lang'
  · subst hl; exact aggLangStep_isSome_self f o lang
  · simpa [aggLangStep, aGet_aSet_ne _ _ _ _ hl] using h

theorem foldl_aggLangStep_entry_ne_field (f f' : String) (h : f ≠ f') :
    ∀ (langs : List String) (o : Ov) (lang : String),
      entryAt (langs.foldl (aggLangStep f') o) lang f = entryAt o lang f := by
  intro langs
  induction langs with
  | nil => intro o lang; rfl
  | cons l rest ih =>
      intro o lang
      rw [List.foldl_cons, ih (aggLangStep f' o l) lang,
        aggLangStep_entry_ne_field f f' o lang l h]

theorem foldl_aggLangStep_entry_not_mem (f : String) :
    ∀ (langs : List String) (o : Ov) (lang : String), lang ∉ langs →
      entryAt (langs.foldl (aggLangStep f) o) lang f = entryAt o lang f := by
  intro langs
  induction langs with
  | nil => intro o lang _; rfl
  | cons l rest ih =>
      intro o lang hmem
      have hl : lang ≠ l := fun hh => hmem (hh ▸ List.mem_cons_self l rest)
      have hr : lang ∉ rest := fun hh => hmem (List.mem_cons_of_mem l hh)
      rw [List.foldl_cons, ih (aggLangStep f o l) lang hr,
        aggLangStep_entry_ne_lang f f o lang l hl]

theorem foldl_aggLangStep_isSome (f : String) :
    ∀ (langs : List String) (o : Ov) (lang : String),
      (aGet o lang).isSome = true →
      (aGet (langs.foldl (aggLangStep f) o) lang).isSome = true := by
  intro langs
  induction langs with
  | nil => intro o lang h; exact h
  | cons l rest ih =>
      intro o lang h
      rw [List.foldl_cons]
      exact ih (aggLangStep f o l) lang (aggLangStep_isSome f o lang l h)

theorem foldl_aggLangStep_entry_mem (f : String) :
    ∀ (langs : List String) (o : Ov) (lang : String), lang ∈ langs →
      entryAt (langs.foldl (aggLangStep f) o) lang f
        = jsOrNull (entryAt o lang f)
      ∧ (aGet (langs.foldl (aggLangStep f) o) lang).isSome = true := by
  intro langs
  induction langs with
  | nil => intro o lang h; cases h
  | cons l rest ih =>
      intro o lang hmem
      by_cases hl : lang = l
      · subst hl
        by_cases hr : lang ∈ rest
        · obtain ⟨h1, h2⟩ := ih (aggLangStep f o lang) lang hr
          refine ⟨?_, by rw [List.foldl_cons]; exact h2⟩
          rw [List.foldl_cons, h1, aggLangStep_entry_self, jsOrNull_idem]
        · constructor
          · rw [List.foldl_cons,
              foldl_aggLangStep_entry_not_mem f rest _ lang hr,
              aggLangStep_entry_self]
          · rw [List.foldl_cons]
            exact foldl_aggLangStep_isSome f rest _ lang
              (aggLangStep_isSome_self f o lang)
      · have hr : lang ∈ rest := by
          rcases List.mem_cons.mp hmem with h | h
          · exact absurd h hl
          · exact h
        obtain ⟨h1, h2⟩ := ih (aggLangStep f o l) lang hr
        refine ⟨?_, by rw [List.foldl_cons]; exact h2⟩
        rw [List.foldl_cons, h1, aggLangStep_entry_ne_lang f f o lang l hl]

theorem aggFieldStep_entry_ne_field (dft : String) (b : String → Option JsVal)
    (langs : List String) (o : Ov) (f f' : String) (h : f ≠ f')
    (lang : String) :
    entryAt (aggFieldStep dft b langs o f') lang f = entryAt o lang f := by
  have hfold := foldl_aggLangStep_entry_ne_field f f' h langs o lang
  by_cases hd : lang = dft
  · subst hd
    rw [aggFieldStep, entryAt_aSet_self, aGet_aSetOpt_ne _ _ _ _ h, ← hfold]
    cases ho2 : aGet (langs.foldl (aggLangStep f') o) lang with
    | none => simp [entryAt, ho2, aGet]
    | some m => simp [entryAt, ho2]
  · rw [aggFieldStep, entryAt_aSet_ne _ _ _ _ _ hd, hfold]

theorem aggFieldStep_isSome_dft (dft : String) (b : String → Option JsVal)
    (langs : List String) (o : Ov) (f : String) :
    (aGet (aggFieldStep dft b langs o f) dft).isSome = true := by
  simp [aggFieldStep, aGet_aSet_self]

theorem aggFieldStep_isSome (dft : String) (b : String → Option JsVal)
    (langs : List String) (o : Ov) (f lang : String)
    (h : (aGet o lang).isSome = true) :
    (aGet (aggFieldStep dft b langs o f) lang).isSome = true := by
  by_cases hd : lang = dft
  · rw [hd]; exact aggFieldStep_isSome_dft dft b langs o f
  · rw [aggFieldStep, aGet_aSet_ne _ _ _ _ hd]
    exact foldl_aggLangStep_isSome f langs o lang h

theorem aggFieldStep_entry_dft_self (dft : String) (b : String → Option JsVal)
    (langs : List String) (o : Ov) (f : String) :
    entryAt (aggFieldStep dft b langs o f) dft f = b f := by
  rw [aggFieldStep, entryAt_aSet_self, aGet_aSetOpt_self]

theorem aggFieldStep_entry_lang (dft : String) (b : String → Option JsVal)
    (langs : List String) (o : Ov) (f lang : String)
    (hmem : lang ∈ langs) (hne : lang ≠ dft) :
    entryAt (aggFieldStep dft b langs o f) lang f = jsOrNull (entryAt o lang f)
    ∧ (aGet (aggFieldStep dft b langs o f) lang).isSome = true := by
  obtain ⟨h1, h2⟩ := foldl_aggLangStep_entry_mem f langs o lang hmem
  constructor
  · rw [aggFieldStep, entryAt_aSet_ne _ _ _ _ _ hne, h1]
  · rw [aggFieldStep, aGet_aSet_ne _ _ _ _ hne]
    exact h2

theorem foldl_aggFieldStep_entry_not_mem (dft : String)
    (b : String → Option JsVal) (langs : List String) :
    ∀ (fields : List String) (o : Ov) (lang f : String), f ∉ fields →
      entryAt (fields.foldl (aggFieldStep dft b langs) o) lang f
        = entryAt o lang f := by
  intro fields
  induction fields with
  | nil => intro o lang f _; rfl
  | cons f0 rest ih =>
      intro o lang f hmem
      have hf0 : f ≠ f0 := fun hh => hmem (hh ▸ List.mem_cons_self f0 rest)
      have hr : f ∉ rest := fun hh => hmem (List.mem_cons_of_mem f0 hh)
      rw [List.foldl_cons, ih (aggFieldStep dft b langs o f0) lang f hr,
        aggFieldStep_entry_ne_field dft b langs o f f0 hf0 lang]

theorem foldl_aggFieldStep_isSome (dft : String) (b : String → Option JsVal)
    (langs : List String) :
    ∀ (fields : List String) (o : Ov) (lang : String),
      (aGet o lang).isSome = true →
      (aGet (fields.foldl (aggFieldStep dft b langs) o) lang).isSome = true := by
  intro fields
  induction fields with
  | nil => intro o lang h; exact h
  | cons f0 rest ih =>
      intro o lang h
      rw [List.foldl_cons]
      exact ih (aggFieldStep dft b langs o f0) lang
        (aggFieldStep_isSome dft b langs o f0 lang h)

theorem foldl_aggFieldStep_entry_lang (dft : String)
    (b : String → Option JsVal) (langs : List String) :
    ∀ (fields : List String) (o : Ov) (lang f : String),
      fields.Nodup → f ∈ fields → lang ∈ langs → lang ≠ dft →
      entryAt (fields.foldl (aggFieldStep dft b langs) o) lang f
        = jsOrNull (entryAt o lang f)
      ∧ (aGet (fields.foldl (aggFieldStep dft b langs) o) lang).isSome = true := by
  intro fields
  induction fields with
  | nil => intro o lang f _ hf; cases hf
  | cons f0 rest ih =>
      intro o lang f hnd hf hmem hne
      by_cases hff : f = f0
      · subst hff
        have hrest : f ∉ rest := (List.nodup_cons.mp hnd).1
        constructor
        · rw [List.foldl_cons,
            foldl_aggFieldStep_entry_not_mem dft b langs rest _ lang f hrest,
            (aggFieldStep_entry_lang dft b langs o f lang hmem hne).1]
        · rw [List.foldl_cons]
          exact foldl_aggFieldStep_isSome dft b langs rest _ lang
            (aggFieldStep_entry_lang dft b langs o f lang hmem hne).2
      · have hfr : f ∈ rest := by
          rcases List.mem_cons.mp hf with h | h
          · exact absurd h hff
          · exact h
        obtain ⟨h1, h2⟩ := ih (aggFieldStep dft b langs o f0) lang f
          (List.nodup_cons.mp hnd).2 hfr hmem hne
        refine ⟨?_, by rw [List.foldl_cons]; exact h2⟩
        rw [List.foldl_cons, h1,
          aggFieldStep_entry_ne_field dft b langs o f f0 hff lang]

theorem foldl_aggFieldStep_entry_dft (dft : String)
    (b : String → Option JsVal) (langs : List String) :
    ∀ (fields : List String) (o : Ov) (f : String),
      fields.Nodup → f ∈ fields →
      entryAt (fields.foldl (aggFieldStep dft b langs) o) dft f = b f := by
  intro fields
  induction fields with
  | nil => intro o f _ hf; cases hf
  | cons f0 rest ih =>
      intro o f hnd hf
      by_cases hff : f = f0
      · subst hff
        have hrest : f ∉ rest := (List.nodup_cons.mp hnd).1
        rw [List.foldl_cons,
          foldl_aggFieldStep_entry_not_mem dft b langs rest _ dft f hrest,
          aggFieldStep_entry_dft_self dft b langs o f]
      · have hfr : f ∈ rest := by
          rcases List.mem_cons.mp hf with h | h
          · exact absurd h hff
          · exact h
        rw [List.foldl_cons]
        exact ih (aggFieldStep dft b langs o f0) f
          (List.nodup_cons.mp hnd).2 hfr

theorem aggGetResult_dft_isSome (doc : Doc) (opts : Options)
    (fields : List String) :
    (aGet (aggGetResult doc opts fields) opts.defaultLanguage).isSome = true := by
  rw [aggGetResult]
  exact foldl_aggFieldStep_isSome opts.defaultLanguage doc.base opts.languages
    fields _ opts.defaultLanguage (by simp [aGet_aSet_self])

/-- C1 counterexample: a persisted document with base `title = "Hello"`,
active language `"fr"` differing from the default `"en"`, no
`fallbackLang` configured and no overlay entry.  Reading `title` by its
plain name returns `undefined` (absent), not the base default-language
value, refuting the claim that such a read degrades to the base value. -/
theorem fieldGet_no_fallback_counterexample :
    fieldGet docC1 optsEnFr "" "title" = none
  ∧ docC1.base "title" = some (JsVal.vstr "Hello")
  ∧ getLanguage docC1 optsEnFr = "fr" := by
  exact ⟨rfl, rfl, rfl⟩

/-- C1 (amended): with the active language differing from the default, no
`fallbackLang` configured and no overlay entry for the active language,
reading the field by its plain name returns the raw overlay lookup — i.e.
absent/`undefined` — rather than the base default-language value (the read
still raises no error; the source's line 74 returns the overlay lookup
instead of the getter's `value` argument). -/
theorem fieldGet_absent_no_fallback (doc : Doc) (opts : Options) (f : String)
    (hL : getLanguage doc opts ≠ opts.defaultLanguage)
    (he : ovEntry doc (getLanguage doc opts) f = none) :
    fieldGet doc opts "" f = none := by
  simp [fieldGet, hL, he, truthy]

/-- C1 witness: the amended theorem evaluated on `docC1`. -/
theorem fieldGet_absent_no_fallback_witness :
    fieldGet docC1 optsEnFr "" "title" = none :=
  fieldGet_absent_no_fallback docC1 optsEnFr "title" (by decide) rfl

/-- C2: writing `v` to a marked field while the active language `L` differs
from the default stores `v` into `overlay[L][f]`, marks the overlay
(`_i18n`) changed, and the base slot receives `v` exactly when the document
is new and the base slot was empty (falsy), otherwise it keeps its prior
(resolved default-language) value, which is also what the accessor hands
back to the host for storage. -/
theorem fieldSet_nondefault (doc : Doc) (opts : Options) (f : String)
    (v : JsVal) (hL : getLanguage doc opts ≠ opts.defaultLanguage) :
    ovEntry (fieldSet doc opts f v) (getLanguage doc opts) f = some v
  ∧ "_i18n" ∈ (fieldSet doc opts f v).modified
  ∧ (fieldSet doc opts f v).base f
      = (if doc.isNew ∧ truthy (doc.base f) = false then some v
         else doc.base f) := by
  refine ⟨?_, ?_, ?_⟩
  · simp [fieldSet, hL, ovEntry, entryAt, aGet_aSet_self]
  · simp [fieldSet, hL]
  · simp [fieldSet, hL]

/-- C2 witness: a brand-new empty document written in French receives the
value in the overlay, in the base slot, and `_i18n` is marked. -/
theorem fieldSet_nondefault_witness :
    ovEntry (fieldSet docW2 optsEnFr "title" (JsVal.vstr "Bonjour")) "fr"
      "title" = some (JsVal.vstr "Bonjour")
  ∧ "_i18n" ∈ (fieldSet docW2 optsEnFr "title" (JsVal.vstr "Bonjour")).modified
  ∧ (fieldSet docW2 optsEnFr "title" (JsVal.vstr "Bonjour")).base "title"
      = some (JsVal.vstr "Bonjour") :=
  fieldSet_nondefault docW2 optsEnFr "title" (JsVal.vstr "Bonjour") (by decide)

/-- C3: with active language `L` differing from the default, a configured
(truthy) `fallbackLang = F`, and no overlay entry `overlay[L][f]`, the read
returns `overlay[F][f]` when that entry is non-empty (truthy), and the base
default-language value when it is absent or empty. -/
theorem fieldGet_fallback (doc : Doc) (opts : Options) (f F : String)
    (hL : getLanguage doc opts ≠ opts.defaultLanguage)
    (hF : F ≠ "")
    (he : ovEntry doc (getLanguage doc opts) f = none) :
    fieldGet doc opts F f
      = (if truthy (ovEntry doc F f) then ovEntry doc F f else doc.base f) := by
  simp [fieldGet, hL, he, hF, truthy]

/-- C3 witness: the fallback read evaluated on `docW3`, with a Spanish
fallback entry present, returns the Spanish value. -/
theorem fieldGet_fallback_witness :
    fieldGet docW3 optsEnFr "es" "title" = some (JsVal.vstr "Hola") :=
  fieldGet_fallback docW3 optsEnFr "title" "es" (by decide) (by decide) rfl

/-- C7: for a language code that is empty or not a member of the configured
set, the instance-level `setLanguage`, the static `setLanguage` and the
static `setDefaultLanguage` all leave every piece of state (the instance
override, every options object in the store, all nested schemas) unchanged,
raising no error. -/
theorem setters_invalid_language_noop (doc : Doc) (st : Store) (r : Nat)
    (t : SchemaTree) (lang : String)
    (h : lang = "" ∨ lang ∉ (st r).languages) :
    methodSetLanguage doc (st r) lang = doc
  ∧ staticSetLanguage r t st lang = st
  ∧ staticSetDefaultLanguage r t st lang = st := by
  have hc : ¬ (lang ≠ "" ∧ lang ∈ (st r).languages) := by
    rcases h with h | h
    · exact fun hc => hc.1 h
    · exact fun hc => h hc.2
  refine ⟨?_, ?_, ?_⟩
  · rw [methodSetLanguage, if_neg hc]
  · rw [staticSetLanguage, if_neg hc]
  · rw [staticSetDefaultLanguage, if_neg hc]

/-- C7 witness: the no-op evaluated for the unconfigured code `"de"` on a
concrete document, store and schema tree. -/
theorem setters_invalid_language_noop_witness :
    methodSetLanguage docC1 (storeC6 0) "de" = docC1
  ∧ staticSetLanguage 0 treeC6 storeC6 "de" = storeC6
  ∧ staticSetDefaultLanguage 0 treeC6 storeC6 "de" = storeC6 :=
  setters_invalid_language_noop docC1 storeC6 0 treeC6 "de"
    (Or.inr (by decide))

/-- C4 counterexample: a document with a stored (truthy) overlay satisfies
the no-default-key invariant, but after a single read of the `_i18n`
aggregate virtual the stored overlay contains an entry keyed by the
default language `"en"` — the getter mutates the aliased stored object in
place — so the invariant is not preserved by aggregate-view reads. -/
theorem aggGet_violates_no_default_key :
    noDefB docC4 "en" = true
  ∧ noDefB (aggGetDoc docC4 optsEnFr ["title"]) "en" = false := by
  exact ⟨rfl, rfl⟩

/-- C4 (amended): the stored overlay never gains an entry keyed by the
default language through field writes, per-language virtual writes, or
aggregate-view writes (and plain field reads and per-language virtual
reads do not touch the document at all); the aggregate-view *read* is the
one operation that violates the invariant, inserting a default-language
sub-map into a stored overlay. -/
theorem overlay_never_default_key (doc : Doc) (opts : Options)
    (f lang : String) (v : JsVal) (payload : Ov)
    (h : noDefB doc opts.defaultLanguage = true) :
    noDefB (fieldSet doc opts f v) opts.defaultLanguage = true
  ∧ noDefB (virtualSet doc opts f lang v) opts.defaultLanguage = true
  ∧ noDefB (aggSetDoc doc opts payload) opts.defaultLanguage = true := by
  refine ⟨?_, ?_, ?_⟩
  · by_cases hL : getLanguage doc opts = opts.defaultLanguage
    · simpa [fieldSet, hL, noDefB] using h
    · have hne : opts.defaultLanguage ≠ getLanguage doc opts :=
        fun hh => hL hh.symm
      simp only [fieldSet, if_neg hL, noDefB]
      rw [aGet_aSet_ne _ _ _ _ hne]
      cases ho : doc.overlay with
      | none => simp [aGet]
      | some o0 => simpa [noDefB, ho] using h
  · by_cases hd : lang = opts.defaultLanguage
    · simpa [virtualSet, hd, noDefB] using h
    · have hne : opts.defaultLanguage ≠ lang := fun hh => hd hh.symm
      simp only [virtualSet, if_neg hd, noDefB]
      rw [aGet_aSet_ne _ _ _ _ hne]
      cases ho : doc.overlay with
      | none => simp [aGet]
      | some o0 => simpa [noDefB, ho] using h
  · cases hp : aGet payload opts.defaultLanguage with
    | some dm => simp [aggSetDoc, hp, noDefB, aGet_aRemove_self]
    | none => simp [aggSetDoc, hp, noDefB]

/-- C4 witness: the amended preservation statement evaluated on a fresh
document, a French field write, a French virtual write, and a bulk payload
carrying both an `"en"` and a `"fr"` sub-map. -/
theorem overlay_never_default_key_witness :
    noDefB (fieldSet docW2 optsEnFr "title" (JsVal.vstr "B")) "en" = true
  ∧ noDefB (virtualSet docW2 optsEnFr "title" "fr" (JsVal.vstr "B")) "en"
      = true
  ∧ noDefB (aggSetDoc docW2 optsEnFr
      [("en", [("title", JsVal.vstr "X")]), ("fr", [("title", JsVal.vstr "Y")])])
      "en" = true :=
  overlay_never_default_key docW2 optsEnFr "title" "fr" (JsVal.vstr "B")
    [("en", [("title", JsVal.vstr "X")]), ("fr", [("title", JsVal.vstr "Y")])]
    (by decide)

/-- C6: the static `setDefaultLanguage` (and `setLanguage`) invoked on the
parent schema mutates only the closure-captured options object of the
invoking plugin instance (object 0) — once per visited schema — and leaves
the nested sub-schema's own options object (object 1) untouched, although
the source's own comment says the walk performs the "default language
change for sub-documents schemas".  Evaluated at the concrete failing
input: parent and child both start at English default; after
`setDefaultLanguage "fr"` the parent's options hold `"fr"` but the child's
still hold `"en"` (and likewise for the active-language walk). -/
theorem staticSetDefaultLanguage_no_child_propagation :
    ((staticSetDefaultLanguage 0 treeC6 storeC6 "fr") 0).defaultLanguage
      = "fr"
  ∧ ((staticSetDefaultLanguage 0 treeC6 storeC6 "fr") 1).defaultLanguage
      = "en"
  ∧ ((staticSetDefaultLanguage 0 treeC6 storeC6 "fr") 1) = storeC6 1
  ∧ ((staticSetLanguage 0 treeC6 storeC6 "fr") 0).language = "fr"
  ∧ ((staticSetLanguage 0 treeC6 storeC6 "fr") 1) = storeC6 1 := by
  exact ⟨rfl, rfl, rfl, rfl, rfl⟩

/-- C8: the per-language virtual accessor bypasses the fallback chain: for
the default language its getter returns the base slot and its setter
writes the base slot and marks the field changed; for every other
configured language the getter returns `overlay[lang][f]` directly (no
fallback of any kind) and the setter writes `overlay[lang][f]` directly,
recording the overlay path as changed and leaving the base slot alone. -/
theorem virtual_accessor_bypass (doc : Doc) (opts : Options)
    (f lang : String) (v : JsVal) (hmem : lang ∈ opts.languages) :
    (lang = opts.defaultLanguage →
        virtualGet doc opts f lang = doc.base f
      ∧ (virtualSet doc opts f lang v).base f = some v
      ∧ f ∈ (virtualSet doc opts f lang v).modified)
  ∧ (lang ≠ opts.defaultLanguage →
        virtualGet doc opts f lang = ovEntry doc lang f
      ∧ ovEntry (virtualSet doc opts f lang v) lang f = some v
      ∧ ("_i18n." ++ lang ++ "." ++ f) ∈ (virtualSet doc opts f lang v).modified
      ∧ (virtualSet doc opts f lang v).base f = doc.base f) := by
  constructor
  · intro hd
    refine ⟨?_, ?_, ?_⟩
    · simp [virtualGet, hd]
    · simp [virtualSet, hd]
    · simp [virtualSet, hd]
  · intro hd
    refine ⟨?_, ?_, ?_, ?_⟩
    · simp [virtualGet, hd]
    · simp [virtualSet, hd, ovEntry, entryAt, aGet_aSet_self]
    · simp [virtualSet, hd]
    · simp [virtualSet, hd]

/-- C8 witness: both branches evaluated on `docW8`: the `title_en` virtual
reads/writes the base slot, the `title_fr` virtual reads/writes the
overlay entry directly. -/
theorem virtual_accessor_bypass_witness :
    (virtualGet docW8 optsEnFr "title" "en" = docW8.base "title"
      ∧ (virtualSet docW8 optsEnFr "title" "en" (JsVal.vstr "Hi")).base "title"
          = some (JsVal.vstr "Hi")
      ∧ "title" ∈ (virtualSet docW8 optsEnFr "title" "en"
          (JsVal.vstr "Hi")).modified)
  ∧ (virtualGet docW8 optsEnFr "title" "fr" = ovEntry docW8 "fr" "title"
      ∧ ovEntry (virtualSet docW8 optsEnFr "title" "fr" (JsVal.vstr "Salut"))
          "fr" "title" = some (JsVal.vstr "Salut")
      ∧ ("_i18n." ++ "fr" ++ "." ++ "title")
          ∈ (virtualSet docW8 optsEnFr "title" "fr" (JsVal.vstr "Salut")).modified
      ∧ (virtualSet docW8 optsEnFr "title" "fr" (JsVal.vstr "Salut")).base
          "title" = docW8.base "title") := by
  constructor
  · exact (virtual_accessor_bypass docW8 optsEnFr "title" "en"
      (JsVal.vstr "Hi") (by decide)).1 rfl
  · exact (virtual_accessor_bypass docW8 optsEnFr "title" "fr"
      (JsVal.vstr "Salut") (by decide)).2 (by decide)

/-- C10 counterexample: on the write path there is no generic fallback —
for a host object providing neither `setValue` nor `$__setValue`,
`setPathValue` calls the absent `$__setValue` member and throws instead of
surfacing the missing capability as `undefined`/absent. -/
theorem setPathValue_no_fallback_counterexample :
    setPathValue hostA "x" (JsVal.vstr "v") = Except.error () := rfl

/-- C10 (amended): on the read path `getPathValue` probes `getValue`, then
`$__getValue`, then a truthy own property, then falls back to the generic
path accessor, so a missing capability or absent value surfaces as
`undefined`/absent; on the write path only `setValue` is probed before
`$__setValue` is invoked unconditionally — a host with either primitive
gets the value stored, but a host with neither throws. -/
theorem pathValue_helpers_probe (h : HostObj) (path : String) (v : JsVal) :
    (∀ g, h.getValueFn = some g → getPathValue h path = g path)
  ∧ (h.getValueFn = none → ∀ g, h.dGetValueFn = some g →
      getPathValue h path = g path)
  ∧ (h.getValueFn = none → h.dGetValueFn = none →
      truthy (h.props path) = false → getPathValue h path = h.mpathVals path)
  ∧ (h.hasSetValue = true ∨ h.hasDSetValue = true →
      ∃ h2, setPathValue h path v = Except.ok h2 ∧ h2.vals path = some v)
  ∧ (h.hasSetValue = false → h.hasDSetValue = false →
      setPathValue h path v = Except.error ()) := by
  refine ⟨?_, ?_, ?_, ?_, ?_⟩
  · intro g hg; simp [getPathValue, hg]
  · intro h1 g hg; simp [getPathValue, h1, hg]
  · intro h1 h2 h3; simp [getPathValue, h1, h2, h3]
  · intro hs
    by_cases hsv : h.hasSetValue = true
    · refine ⟨{ h with vals := fun x => if x = path then some v else h.vals x },
        ?_, ?_⟩
      · simp [setPathValue, hsv]
      · simp
    · have hsv' : h.hasSetValue = false := by
        cases hh : h.hasSetValue
        · rfl
        · exact absurd hh hsv
      have hds : h.hasDSetValue = true := by
        rcases hs with hs | hs
        · exact absurd hs hsv
        · exact hs
      refine ⟨{ h with vals := fun x => if x = path then some v else h.vals x },
        ?_, ?_⟩
      · simp [setPathValue, hsv', hds]
      · simp
  · intro h1 h2; simp [setPathValue, h1, h2]

/-- C10 witness: the probe chain evaluated on concrete hosts — `hostA`
(no capabilities at all) reaches the generic accessor on read and throws
on write; `hostB` (a mongoose 5.5.14+ document shape) stores through
`$__setValue`. -/
theorem pathValue_helpers_probe_witness :
    getPathValue hostA "x" = hostA.mpathVals "x"
  ∧ (∃ h2, setPathValue hostB "x" (JsVal.vstr "v") = Except.ok h2
        ∧ h2.vals "x" = some (JsVal.vstr "v"))
  ∧ setPathValue hostA "x" (JsVal.vstr "v") = Except.error () := by
  refine ⟨?_, ?_, ?_⟩
  · exact (pathValue_helpers_probe hostA "x" (JsVal.vstr "v")).2.2.1 rfl rfl rfl
  · exact (pathValue_helpers_probe hostB "x" (JsVal.vstr "v")).2.2.2.1
      (Or.inr rfl)
  · exact (pathValue_helpers_probe hostA "x" (JsVal.vstr "v")).2.2.2.2 rfl rfl

/-- C5: the aggregate getter's result contains a sub-map for every
configured language; for every non-default configured language and marked
field the `(lang, field)` entry is present, and it is `null` when no
overlay entry exists; and the default-language sub-map holds exactly the
current base-slot value of every marked field. -/
theorem aggGet_complete (doc : Doc) (opts : Options) (fields : List String)
    (f : String) (hnd : fields.Nodup) (hf : f ∈ fields) :
    (∀ lang, lang ∈ opts.languages → lang ≠ opts.defaultLanguage →
        (aGet (aggGetResult doc opts fields) lang).isSome = true
      ∧ (entryAt (aggGetResult doc opts fields) lang f).isSome = true
      ∧ (ovEntry doc lang f = none →
          entryAt (aggGetResult doc opts fields) lang f = some JsVal.vnull))
  ∧ (aGet (aggGetResult doc opts fields) opts.defaultLanguage).isSome = true
  ∧ entryAt (aggGetResult doc opts fields) opts.defaultLanguage f
      = doc.base f := by
  refine ⟨?_, aggGetResult_dft_isSome doc opts fields, ?_⟩
  · intro lang hmem hne
    obtain ⟨h1, h2⟩ := foldl_aggFieldStep_entry_lang opts.defaultLanguage
      doc.base opts.languages fields
      (aSet (doc.overlay.getD []) opts.defaultLanguage []) lang f hnd hf
      hmem hne
    have hinit : entryAt (aSet (doc.overlay.getD []) opts.defaultLanguage [])
        lang f = ovEntry doc lang f :=
      entryAt_aSet_ne _ _ _ _ _ hne
    rw [aggGetResult]
    refine ⟨h2, ?_, ?_⟩
    · rw [h1, hinit]; exact jsOrNull_isSome _
    · intro he; rw [h1, hinit, he]; simp [jsOrNull, truthy]
  · rw [aggGetResult]
    exact foldl_aggFieldStep_entry_dft opts.defaultLanguage doc.base
      opts.languages fields _ f hnd hf

/-- C5 witness: the completeness statement evaluated on `docC9`
(no stored overlay, base `title = "Hello"`) with the configured languages
`["en", "fr"]`: the result has an `"en"` and a `"fr"` sub-map, the
`("fr", "title")` slot is `null`, and the `"en"` sub-map holds the base
value. -/
theorem aggGet_complete_witness :
    ((aGet (aggGetResult docC9 optsEnFr ["title"]) "fr").isSome = true
      ∧ (entryAt (aggGetResult docC9 optsEnFr ["title"]) "fr" "title").isSome
          = true
      ∧ (ovEntry docC9 "fr" "title" = none →
          entryAt (aggGetResult docC9 optsEnFr ["title"]) "fr" "title"
            = some JsVal.vnull))
  ∧ (aGet (aggGetResult docC9 optsEnFr ["title"]) "en").isSome = true
  ∧ entryAt (aggGetResult docC9 optsEnFr ["title"]) "en" "title"
      = docC9.base "title" := by
  obtain ⟨h1, h2, h3⟩ :=
    aggGet_complete docC9 optsEnFr ["title"] "title" (by decide) (by decide)
  exact ⟨h1 "fr" (by decide) (by decide), h2, h3⟩

/-- C9 counterexample: for a document whose raw `_doc` has no `_i18n` key,
reading the aggregate view runs on a fresh empty object and leaves the
document unchanged — afterwards the stored overlay still holds no entry
for any configured language, refuting the unconditional claim that one
read populates the stored overlay. -/
theorem aggGet_no_overlay_counterexample :
    (aggGetDoc docC9 optsEnFr ["title"]).overlay = none := rfl

/-- C9 (amended): when the document has a stored (truthy) `_i18n` object,
the aggregate getter's in-place mutation makes the stored overlay become
the getter's result: it then contains a sub-map for the default language
and for every configured language, with `null` entries for marked fields
that had no translation before the read; when no `_i18n` object is
stored, the read leaves the document unchanged (previous theorem). -/
theorem aggGet_mutates_overlay (doc : Doc) (opts : Options)
    (fields : List String) (o0 : Ov) (ho : doc.overlay = some o0)
    (hnd : fields.Nodup) :
    (aggGetDoc doc opts fields).overlay = some (aggGetResult doc opts fields)
  ∧ (aGet (aggGetResult doc opts fields) opts.defaultLanguage).isSome = true
  ∧ (∀ f lang, f ∈ fields → lang ∈ opts.languages →
      lang ≠ opts.defaultLanguage →
      (aGet (aggGetResult doc opts fields) lang).isSome = true
      ∧ (ovEntry doc lang f = none →
          entryAt (aggGetResult doc opts fields) lang f = some JsVal.vnull)
      ∧ entryAt (aggGetResult doc opts fields) opts.defaultLanguage f
          = doc.base f) := by
  refine ⟨by simp [aggGetDoc, ho], aggGetResult_dft_isSome doc opts fields,
    ?_⟩
  intro f lang hf hmem hne
  obtain ⟨h1, h2⟩ := foldl_aggFieldStep_entry_lang opts.defaultLanguage
    doc.base opts.languages fields
    (aSet (doc.overlay.getD []) opts.defaultLanguage []) lang f hnd hf
    hmem hne
  have hinit : entryAt (aSet (doc.overlay.getD []) opts.defaultLanguage [])
      lang f = ovEntry doc lang f :=
    entryAt_aSet_ne _ _ _ _ _ hne
  rw [aggGetResult]
  refine ⟨h2, ?_, ?_⟩
  · intro he; rw [h1, hinit, he]; simp [jsOrNull, truthy]
  · exact foldl_aggFieldStep_entry_dft opts.defaultLanguage doc.base
      opts.languages fields _ f hnd hf

/-- C9 witness: the mutation statement evaluated on `docC4`, whose stored
overlay holds a French `title`: after the read the stored overlay is the
getter's result, which gained an `"en"` sub-map carrying the base values. -/
theorem aggGet_mutates_overlay_witness :
    (aggGetDoc docC4 optsEnFr ["title"]).overlay
      = some (aggGetResult docC4 optsEnFr ["title"])
  ∧ (aGet (aggGetResult docC4 optsEnFr ["title"]) "en").isSome = true
  ∧ ((aGet (aggGetResult docC4 optsEnFr ["title"]) "fr").isSome = true
      ∧ (ovEntry docC4 "fr" "title" = none →
          entryAt (aggGetResult docC4 optsEnFr ["title"]) "fr" "title"
            = some JsVal.vnull)
      ∧ entryAt (aggGetResult docC4 optsEnFr ["title"]) "en" "title"
          = docC4.base "title") := by
  obtain ⟨h1, h2, h3⟩ := aggGet_mutates_overlay docC4 optsEnFr ["title"]
    [("fr", [("title", JsVal.vstr "Bonjour")])] rfl (by decide)
  exact ⟨h1, h2, h3 "title" "fr" (by decide) (by decide) (by decide)⟩

end MongooseI18nExtra



